import Mathlib

/-!
Shallow embedding of `src/app/pdf_processor.py` (class `PDFProcessor`) from the
PdfProcessor repository, together with proofs settling the spec claims.

Modelling conventions:
* Python text is modelled as `List Char`; error messages as `String`.
* Bytes are modelled as `List Nat` (byte values are never inspected).
* The external PDF parsing capability (PyMuPDF/fitz) is abstracted by
  `OpenResult`/`PdfDoc`: a document reports an encrypted flag and a list of
  pages, each page either raising on `get_text` (`none`) or yielding text
  (`some t`).
* Python exceptions relevant to the pipeline boundary are the inductive
  `PyExc`; fallible code returns `Except PyExc`.
-/

/-- Python `str.isspace` character class (the whitespace stripped by
`str.strip()` with no arguments): ASCII whitespace, separator controls and
the Unicode space characters, by code point. -/
def isPySpace (c : Char) : Bool :=
  c = ' ' || c = '\t' || c = '\n' || c.toNat = 0x0b || c.toNat = 0x0c ||
  c = '\r' || (0x1c ≤ c.toNat && c.toNat ≤ 0x1f) ||
  c.toNat = 0x85 || c.toNat = 0xa0 || c.toNat = 0x1680 ||
  (0x2000 ≤ c.toNat && c.toNat ≤ 0x200a) ||
  c.toNat = 0x2028 || c.toNat = 0x2029 || c.toNat = 0x202f ||
  c.toNat = 0x205f || c.toNat = 0x3000

/-- Python `str.strip()`: drop whitespace from the front, then from the back. -/
def pyStrip (l : List Char) : List Char :=
  ((l.dropWhile isPySpace).reverse.dropWhile isPySpace).reverse

/-- Python `text.split('\n')`: split into the (possibly empty) segments
between newline characters.  Always returns at least one segment. -/
def splitOnNl : List Char → List (List Char)
  | [] => [[]]
  | c :: rest =>
    if c = '\n' then [] :: splitOnNl rest
    else
      match splitOnNl rest with
      | [] => [[c]]
      | l :: ls => (c :: l) :: ls

/-- Python `'\n'.join(lines)`. -/
def joinNl : List (List Char) → List Char
  | [] => []
  | [l] => l
  | l :: l2 :: ls => l ++ '\n' :: joinNl (l2 :: ls)

/-- Python `re.sub(r' +', ' ', text)`: collapse every maximal run of space
characters to a single space (drop each space that is followed by a space). -/
def collapseSpaces : List Char → List Char
  | [] => []
  | [c] => [c]
  | c1 :: c2 :: rest =>
    if c1 = ' ' ∧ c2 = ' ' then collapseSpaces (c2 :: rest)
    else c1 :: collapseSpaces (c2 :: rest)

/-- `PDFProcessor._clean_text` (src/app/pdf_processor.py lines 192-218):
split on `'\n'`, strip each line, drop lines that became empty, rejoin with
single newlines, then collapse runs of spaces. -/
def clean_text (text : List Char) : List Char :=
  collapseSpaces (joinNl (((splitOnNl text).map pyStrip).filter (· ≠ [])))

/-- The normalization as worded by the spec (§4.3): split on line boundaries,
trim leading/trailing whitespace per line, drop lines that become empty,
collapse runs of interior space characters (not newlines) to a single space,
and rejoin with single newline separators. -/
def normalizeSpec (text : List Char) : List Char :=
  joinNl ((((splitOnNl text).map pyStrip).filter (· ≠ [])).map collapseSpaces)

/-- Python exception values crossing the pipeline boundary: the three domain
errors from `src/app/exceptions.py`, the transport exceptions named in the
`except` clauses, and `other` for any unexpected exception type. -/
inductive PyExc where
  | urlError (msg : String)
  | timeoutError (msg : String)
  | pdfProcessingError (msg : String)
  | aiohttpClientError (msg : String)
  | asyncioTimeout (msg : String)
  | other (ty : String) (msg : String)
deriving DecidableEq, Repr

/-- `isinstance(e, (URLError, PDFProcessingError, TimeoutError))`. -/
def isDomainExc : PyExc → Bool
  | .urlError _ => true
  | .timeoutError _ => true
  | .pdfProcessingError _ => true
  | _ => false

/-- Python `str(e)` on the modelled exception. -/
def excStr : PyExc → String
  | .urlError m => m
  | .timeoutError m => m
  | .pdfProcessingError m => m
  | .aiohttpClientError m => m
  | .asyncioTimeout m => m
  | .other _ m => m

/-- The opened fitz document: its reported encrypted flag and its pages.
A page is `none` when `doc[page_num]`/`page.get_text` raises, else
`some text`. -/
structure PdfDoc where
  is_encrypted : Bool
  pages : List (Option (List Char))
deriving DecidableEq

/-- Outcome of `fitz.open(stream=..., filetype="pdf")`: a `FileDataError`,
some other parser exception (carrying `str(e)`), or an opened document. -/
inductive OpenResult where
  | fileDataError
  | otherError (msg : String)
  | ok (doc : PdfDoc)
deriving DecidableEq

/-- The page loop of `_extract_text_from_bytes` (lines 160-170): a raising
page is skipped, a non-raising page is appended when its stripped text is
non-empty (the raw, unstripped text is appended). -/
def collectParts : List (Option (List Char)) → List (List Char)
  | [] => []
  | none :: rest => collectParts rest
  | some t :: rest =>
    if pyStrip t = [] then collectParts rest else t :: collectParts rest

/-- Python `"\n\n".join(text_parts)`. -/
def joinBlankLine : List (List Char) → List Char
  | [] => []
  | [l] => l
  | l :: l2 :: ls => l ++ '\n' :: '\n' :: joinBlankLine (l2 :: ls)

/-- `PDFProcessor._extract_text_from_bytes` (lines 137-190), over the opened
document.  The outer `except` clauses map `fitz.FileDataError` to
"Invalid or corrupted PDF file" and any other non-`PDFProcessingError`
exception to "PDF processing failed: ...". -/
def extract_text_from_bytes : OpenResult → Except PyExc (List Char)
  | .fileDataError => .error (.pdfProcessingError "Invalid or corrupted PDF file")
  | .otherError m => .error (.pdfProcessingError ("PDF processing failed: " ++ m))
  | .ok doc =>
    if doc.is_encrypted then
      .error (.pdfProcessingError "PDF is encrypted and cannot be processed")
    else if doc.pages.length = 0 then
      .error (.pdfProcessingError "PDF has no pages")
    else
      let text_parts := collectParts doc.pages
      if text_parts = [] then
        .error (.pdfProcessingError "No readable text found in PDF")
      else
        .ok (clean_text (joinBlankLine text_parts))

/-- The `except` chain of `extract_text_from_url` (lines 59-66):
`aiohttp.ClientError` becomes a URLError, `asyncio.TimeoutError` becomes the
domain TimeoutError, the three domain errors re-raise unchanged, and any
other exception is wrapped as `PDFProcessingError("Unexpected error: ...")`. -/
def handlePipelineExc (request_timeout : Nat) : PyExc → PyExc
  | .aiohttpClientError m => .urlError ("Failed to download PDF: " ++ m)
  | .asyncioTimeout _ =>
    .timeoutError ("Request timed out after " ++ toString request_timeout ++ " seconds")
  | .urlError m => .urlError m
  | .timeoutError m => .timeoutError m
  | .pdfProcessingError m => .pdfProcessingError m
  | .other _ m => .pdfProcessingError ("Unexpected error: " ++ m)

/-- `PDFProcessor.extract_text_from_url` (lines 26-66), over the outcome of
the download step (`_download_pdf` composed with `fitz.open`): run the
try-block body, then apply the `except` chain to any raised exception. -/
def extract_text_from_url (request_timeout : Nat)
    (download : Except PyExc OpenResult) : Except PyExc (List Char) :=
  let body : Except PyExc (List Char) :=
    match download with
    | .error e => .error e
    | .ok opened =>
      match extract_text_from_bytes opened with
      | .error e => .error e
      | .ok text =>
        if pyStrip text = [] then
          .error (.pdfProcessingError "No text content found in PDF")
        else .ok (pyStrip text)
  match body with
  | .ok t => .ok t
  | .error e => .error (handlePipelineExc request_timeout e)

/-- The transport response seen by `_download_pdf`: status, reason phrase,
declared headers, and the body as the chunk sequence yielded by
`response.content.iter_chunked(8192)` (chunk sizes are an implementation
detail and are left arbitrary). -/
structure HttpResponse where
  status : Nat
  reason : String
  content_type : Option String
  content_length : Option Nat
  chunks : List (List Nat)
deriving DecidableEq

/-- The accumulation loop of `_read_with_limit` (lines 130-135): append each
chunk, raising as soon as the accumulated content exceeds the limit. -/
def read_with_limit_go (limit : Nat) :
    List (List Nat) → List Nat → Except PyExc (List Nat)
  | [], content => .ok content
  | chunk :: rest, content =>
    let content' := content ++ chunk
    if limit < content'.length then
      .error (.urlError ("File exceeds maximum size limit of " ++
        toString limit ++ " bytes"))
    else read_with_limit_go limit rest content'

/-- `PDFProcessor._read_with_limit` (lines 116-135). -/
def read_with_limit (chunks : List (List Nat)) (limit : Nat) :
    Except PyExc (List Nat) :=
  read_with_limit_go limit chunks []

/-- The tail of `_download_pdf` after the header checks (lines 103-109):
stream the body under the size limit, then reject an empty body. -/
def download_body (resp : HttpResponse) (max_file_size : Nat) :
    Except PyExc (List Nat) :=
  match read_with_limit resp.chunks max_file_size with
  | .error e => .error e
  | .ok content =>
    if content.length = 0 then .error (.urlError "Empty file downloaded")
    else .ok content

/-- `PDFProcessor._download_pdf` (lines 68-114), over the transport
response: status check, non-fatal content-type warning (no effect),
declared-length check, then the streamed body read. -/
def download_pdf (resp : HttpResponse) (max_file_size : Nat) :
    Except PyExc (List Nat) :=
  if resp.status ≠ 200 then
    .error (.urlError ("HTTP " ++ toString resp.status ++ ": " ++ resp.reason))
  else
    match resp.content_length with
    | some n =>
      if max_file_size < n then
        .error (.urlError ("File too large: " ++ toString n ++ " bytes"))
      else download_body resp max_file_size
    | none => download_body resp max_file_size

/-- The aggregate returned by `extract_text_from_multiple_urls`
(lines 254-260).  The dictionaries are modelled as insertion-ordered
association lists with Python's update-in-place semantics. -/
structure BatchResult where
  results : List (String × List Char)
  errors : List (String × String)
  total_processed : Nat
  successful : Nat
  failed : Nat
deriving DecidableEq

/-- Python `d[k] = v`: update the existing entry in place, else append. -/
def dictInsert {V : Type} (k : String) (v : V) (d : List (String × V)) :
    List (String × V) :=
  if d.any (fun p => p.1 = k) then
    d.map (fun p => if p.1 = k then (k, v) else p)
  else d ++ [(k, v)]

/-- One completion of `process_single_url` (lines 247-252): a success is
written into `results`, a failure's `str(e)` into `errors`. -/
def batchStep (f : String → Except String (List Char))
    (st : List (String × List Char) × List (String × String))
    (url : String) : List (String × List Char) × List (String × String) :=
  match f url with
  | .ok text => (dictInsert url text st.1, st.2)
  | .error e => (st.1, dictInsert url e st.2)

/-- `PDFProcessor.extract_text_from_multiple_urls` (lines 220-260).
`f` gives each URL's pipeline outcome (`process_single_url` never raises:
it returns either the text or `str` of the caught exception); `order` is
the completion order produced by `asyncio.as_completed`, a permutation of
the input list. -/
def extract_text_from_multiple_urls (urls : List String)
    (f : String → Except String (List Char)) (order : List String) :
    BatchResult :=
  let st := order.foldl (batchStep f) ([], [])
  { results := st.1
    errors := st.2
    total_processed := urls.length
    successful := st.1.length
    failed := st.2.length }

/-- Helper predicate: no space character is immediately followed by another
space (the fixed points of `collapseSpaces`). -/
def noTwoSpaces : List Char → Bool
  | c1 :: c2 :: rest => !(c1 = ' ' && c2 = ' ') && noTwoSpaces (c2 :: rest)
  | _ => true

/-- Helper: the cleaned lines underlying `clean_text`/`normalizeSpec`. -/
def canonLines (text : List Char) : List (List Char) :=
  (((splitOnNl text).map pyStrip).filter (· ≠ [])).map collapseSpaces

/-- As the claim words it: the non-blank text fragments of the pages that do
not raise, in page order. -/
def nonBlankFragments (pages : List (Option (List Char))) : List (List Char) :=
  pages.filterMap (fun p =>
    match p with
    | none => none
    | some t => if pyStrip t = [] then none else some t)

/-- The successful batch entries, in completion order. -/
def okPairs (f : String → Except String (List Char)) (order : List String) :
    List (String × List Char) :=
  order.filterMap (fun u =>
    match f u with
    | .ok t => some (u, t)
    | .error _ => none)

/-- The failed batch entries, in completion order. -/
def errPairs (f : String → Except String (List Char)) (order : List String) :
    List (String × String) :=
  order.filterMap (fun u =>
    match f u with
    | .ok _ => none
    | .error e => some (u, e))

theorem splitOnNl_ne_nil (s : List Char) : splitOnNl s ≠ [] := by
  induction s with
  | nil => simp [splitOnNl]
  | cons c rest ih =>
    by_cases h : c = '\n'
    · simp [splitOnNl, h]
    · cases h2 : splitOnNl rest with
      | nil => exact absurd h2 ih
      | cons l ls => simp [splitOnNl, h, h2]

theorem splitOnNl_cons_of_ne {c : Char} {rest l : List Char}
    {ls : List (List Char)} (h : c ≠ '\n') (h2 : splitOnNl rest = l :: ls) :
    splitOnNl (c :: rest) = (c :: l) :: ls := by
  simp [splitOnNl, h, h2]

theorem nl_not_mem_splitOnNl {s M : List Char} (hM : M ∈ splitOnNl s) :
    '\n' ∉ M := by
  induction s generalizing M with
  | nil => simp [splitOnNl] at hM; simp [hM]
  | cons c rest ih =>
    by_cases h : c = '\n'
    · subst h
      simp [splitOnNl] at hM
      rcases hM with hM | hM
      · simp [hM]
      · exact ih hM
    · cases h2 : splitOnNl rest with
      | nil => exact absurd h2 (splitOnNl_ne_nil rest)
      | cons l ls =>
        rw [splitOnNl_cons_of_ne h h2] at hM
        rcases List.mem_cons.mp hM with hM | hM
        · subst hM
          intro hmem
          rcases List.mem_cons.mp hmem with hc | hc
          · exact h hc.symm
          · exact ih (h2 ▸ List.mem_cons_self l ls) hc
        · exact ih (h2 ▸ List.mem_cons_of_mem l hM)

theorem joinNl_cons {l : List Char} {ls : List (List Char)} (h : ls ≠ []) :
    joinNl (l :: ls) = l ++ '\n' :: joinNl ls := by
  cases ls with
  | nil => exact absurd rfl h
  | cons l2 ls' => rfl

theorem joinNl_splitOnNl (s : List Char) : joinNl (splitOnNl s) = s := by
  induction s with
  | nil => rfl
  | cons c rest ih =>
    by_cases h : c = '\n'
    · subst h
      rw [show splitOnNl ('\n' :: rest) = [] :: splitOnNl rest by
            simp [splitOnNl],
          joinNl_cons (splitOnNl_ne_nil rest)]
      simp [ih]
    · cases h2 : splitOnNl rest with
      | nil => exact absurd h2 (splitOnNl_ne_nil rest)
      | cons l ls =>
        rw [splitOnNl_cons_of_ne h h2]
        rw [h2] at ih
        cases ls with
        | nil => simpa [joinNl] using ih
        | cons l2 ls' =>
          rw [joinNl_cons (l := c :: l) (by simp)]
          rw [joinNl_cons (by simp)] at ih
          simp [← ih]

theorem splitOnNl_of_no_nl {xs : List Char} (h : '\n' ∉ xs) :
    splitOnNl xs = [xs] := by
  induction xs with
  | nil => rfl
  | cons c rest ih =>
    have hc : c ≠ '\n' := fun hc => h (hc ▸ List.mem_cons_self c rest)
    have hrest : '\n' ∉ rest := fun hm => h (List.mem_cons_of_mem c hm)
    exact splitOnNl_cons_of_ne hc (ih hrest)

theorem splitOnNl_append_nl {xs : List Char} (t : List Char)
    (h : '\n' ∉ xs) : splitOnNl (xs ++ '\n' :: t) = xs :: splitOnNl t := by
  induction xs with
  | nil => simp [splitOnNl]
  | cons c rest ih =>
    have hc : c ≠ '\n' := fun hc => h (hc ▸ List.mem_cons_self c rest)
    have hrest : '\n' ∉ rest := fun hm => h (List.mem_cons_of_mem c hm)
    have := ih hrest
    cases h2 : splitOnNl (rest ++ '\n' :: t) with
    | nil => exact absurd h2 (splitOnNl_ne_nil _)
    | cons l ls =>
      rw [h2] at this
      injection this with hl hls
      subst hl; subst hls
      simpa using splitOnNl_cons_of_ne hc h2

theorem collapseSpaces_ne_nil : ∀ {l : List Char}, l ≠ [] → collapseSpaces l ≠ []
  | [], h => absurd rfl h
  | [c], _ => by simp [collapseSpaces]
  | c1 :: c2 :: rest, _ => by
    by_cases h : c1 = ' ' ∧ c2 = ' '
    · simpa [collapseSpaces, h] using
        collapseSpaces_ne_nil (l := c2 :: rest) (by simp)
    · simp [collapseSpaces, h]

theorem collapseSpaces_head? : ∀ (l : List Char),
    (collapseSpaces l).head? = l.head?
  | [] => rfl
  | [_] => rfl
  | c1 :: c2 :: rest => by
    by_cases h : c1 = ' ' ∧ c2 = ' '
    · rw [show collapseSpaces (c1 :: c2 :: rest) = collapseSpaces (c2 :: rest)
          by simp [collapseSpaces, h]]
      rw [collapseSpaces_head? (c2 :: rest)]
      simp [h.1, h.2]
    · simp [collapseSpaces, h]

theorem collapseSpaces_getLast?_keep :
    ∀ {l : List Char} {c : Char}, l.getLast? = some c → c ≠ ' ' →
      (collapseSpaces l).getLast? = some c
  | [], _, h, _ => by simp at h
  | [c'], c, h, _ => by simpa [collapseSpaces] using h
  | c1 :: c2 :: rest, c, h, hc => by
    rw [List.getLast?_cons_cons] at h
    by_cases hsp : c1 = ' ' ∧ c2 = ' '
    · rw [show collapseSpaces (c1 :: c2 :: rest) = collapseSpaces (c2 :: rest)
          by simp [collapseSpaces, hsp]]
      exact collapseSpaces_getLast?_keep h hc
    · rw [show collapseSpaces (c1 :: c2 :: rest)
            = c1 :: collapseSpaces (c2 :: rest)
          by simp [collapseSpaces, hsp]]
      have hner : collapseSpaces (c2 :: rest) ≠ [] :=
        collapseSpaces_ne_nil (by simp)
      cases hM : collapseSpaces (c2 :: rest) with
      | nil => exact absurd hM hner
      | cons m M' =>
        rw [List.getLast?_cons_cons]
        rw [← hM]
        exact collapseSpaces_getLast?_keep h hc

theorem collapseSpaces_sublist : ∀ (l : List Char),
    List.Sublist (collapseSpaces l) l
  | [] => List.Sublist.refl []
  | [c] => List.Sublist.refl [c]
  | c1 :: c2 :: rest => by
    by_cases h : c1 = ' ' ∧ c2 = ' '
    · rw [show collapseSpaces (c1 :: c2 :: rest) = collapseSpaces (c2 :: rest)
          by simp [collapseSpaces, h]]
      exact (collapseSpaces_sublist (c2 :: rest)).cons c1
    · rw [show collapseSpaces (c1 :: c2 :: rest)
            = c1 :: collapseSpaces (c2 :: rest)
          by simp [collapseSpaces, h]]
      exact (collapseSpaces_sublist (c2 :: rest)).cons₂ c1

theorem noTwoSpaces_collapseSpaces : ∀ (l : List Char),
    noTwoSpaces (collapseSpaces l) = true
  | [] => rfl
  | [_] => rfl
  | c1 :: c2 :: rest => by
    by_cases h : c1 = ' ' ∧ c2 = ' '
    · rw [show collapseSpaces (c1 :: c2 :: rest) = collapseSpaces (c2 :: rest)
          by simp [collapseSpaces, h]]
      exact noTwoSpaces_collapseSpaces (c2 :: rest)
    · rw [show collapseSpaces (c1 :: c2 :: rest)
            = c1 :: collapseSpaces (c2 :: rest)
          by simp [collapseSpaces, h]]
      have hh := collapseSpaces_head? (c2 :: rest)
      cases hM : collapseSpaces (c2 :: rest) with
      | nil => exact absurd hM (collapseSpaces_ne_nil (by simp))
      | cons m M' =>
        rw [hM] at hh
        simp at hh
        have ht := noTwoSpaces_collapseSpaces (c2 :: rest)
        rw [hM] at ht
        simp [noTwoSpaces, ht]
        rw [hh]
        exact not_and_or.mp h

theorem collapseSpaces_eq_self : ∀ {l : List Char},
    noTwoSpaces l = true → collapseSpaces l = l
  | [], _ => rfl
  | [_], _ => rfl
  | c1 :: c2 :: rest, h => by
    rw [noTwoSpaces] at h
    simp at h
    have hns : ¬(c1 = ' ' ∧ c2 = ' ') := by
      intro hc
      exact absurd h.1 (by simp [hc.1, hc.2])
    rw [show collapseSpaces (c1 :: c2 :: rest)
          = c1 :: collapseSpaces (c2 :: rest)
        by simp [collapseSpaces, hns]]
    rw [collapseSpaces_eq_self h.2]

theorem collapseSpaces_idem (l : List Char) :
    collapseSpaces (collapseSpaces l) = collapseSpaces l :=
  collapseSpaces_eq_self (noTwoSpaces_collapseSpaces l)

theorem collapseSpaces_nl_cons (ys : List Char) :
    collapseSpaces ('\n' :: ys) = '\n' :: collapseSpaces ys := by
  cases ys with
  | nil => rfl
  | cons y ys' => simp [collapseSpaces]

theorem collapseSpaces_append_nl : ∀ (xs ys : List Char),
    collapseSpaces (xs ++ '\n' :: ys)
      = collapseSpaces xs ++ '\n' :: collapseSpaces ys
  | [], ys => by simpa using collapseSpaces_nl_cons ys
  | [c], ys => by
    have : ¬(c = ' ' ∧ '\n' = ' ') := by simp
    simp only [List.singleton_append, collapseSpaces, this, if_false]
    rw [collapseSpaces_nl_cons]
  | c1 :: c2 :: xs', ys => by
    have ih := collapseSpaces_append_nl (c2 :: xs') ys
    by_cases h : c1 = ' ' ∧ c2 = ' '
    · rw [show (c1 :: c2 :: xs') ++ '\n' :: ys
            = c1 :: c2 :: (xs' ++ '\n' :: ys) by simp]
      rw [show collapseSpaces (c1 :: c2 :: (xs' ++ '\n' :: ys))
            = collapseSpaces (c2 :: (xs' ++ '\n' :: ys))
          by simp [collapseSpaces, h]]
      rw [show collapseSpaces (c1 :: c2 :: xs')
            = collapseSpaces (c2 :: xs') by simp [collapseSpaces, h]]
      simpa using ih
    · rw [show (c1 :: c2 :: xs') ++ '\n' :: ys
            = c1 :: c2 :: (xs' ++ '\n' :: ys) by simp]
      rw [show collapseSpaces (c1 :: c2 :: (xs' ++ '\n' :: ys))
            = c1 :: collapseSpaces (c2 :: (xs' ++ '\n' :: ys))
          by simp [collapseSpaces, h]]
      rw [show collapseSpaces (c1 :: c2 :: xs')
            = c1 :: collapseSpaces (c2 :: xs') by simp [collapseSpaces, h]]
      simpa using ih

theorem collapseSpaces_joinNl : ∀ (Ms : List (List Char)),
    collapseSpaces (joinNl Ms) = joinNl (Ms.map collapseSpaces)
  | [] => rfl
  | [M] => rfl
  | M :: M2 :: Ms' => by
    rw [joinNl_cons (by simp), collapseSpaces_append_nl,
      collapseSpaces_joinNl (M2 :: Ms')]
    rw [show (M :: M2 :: Ms').map collapseSpaces
          = collapseSpaces M :: (M2 :: Ms').map collapseSpaces by simp]
    rw [joinNl_cons (by simp)]

theorem getLast?_eq_of_suffix {l₁ l₂ : List Char}
    (h : List.IsSuffix l₁ l₂) (hne : l₁ ≠ []) : l₁.getLast? = l₂.getLast? := by
  obtain ⟨t, rfl⟩ := h
  exact (List.getLast?_append_of_ne_nil t hne).symm

theorem head?_dropWhile_not_pySpace {l : List Char} {c : Char}
    (h : (l.dropWhile isPySpace).head? = some c) : isPySpace c = false := by
  have hne : l.dropWhile isPySpace ≠ [] := by
    intro hnil; rw [hnil] at h; simp at h
  have := List.head_dropWhile_not isPySpace l hne
  rw [List.head?_eq_head hne] at h
  injection h with h
  rw [← h]
  exact this

theorem pyStrip_sublist (l : List Char) : List.Sublist (pyStrip l) l := by
  have h1 : List.Sublist (l.dropWhile isPySpace) l :=
    (List.dropWhile_suffix _).sublist
  have h2 : List.Sublist
      ((l.dropWhile isPySpace).reverse.dropWhile isPySpace)
      (l.dropWhile isPySpace).reverse :=
    (List.dropWhile_suffix _).sublist
  have h3 := h2.reverse
  rw [List.reverse_reverse] at h3
  exact h3.trans h1

theorem isPySpace_getLast_pyStrip {l : List Char} {c : Char}
    (h : (pyStrip l).getLast? = some c) : isPySpace c = false := by
  rw [pyStrip, List.getLast?_reverse] at h
  exact head?_dropWhile_not_pySpace h

theorem isPySpace_head_pyStrip {l : List Char} {c : Char}
    (h : (pyStrip l).head? = some c) : isPySpace c = false := by
  rw [pyStrip, List.head?_reverse] at h
  have hne : (l.dropWhile isPySpace).reverse.dropWhile isPySpace ≠ [] := by
    intro hnil; rw [hnil] at h; simp at h
  rw [getLast?_eq_of_suffix (List.dropWhile_suffix _) hne,
    List.getLast?_reverse] at h
  exact head?_dropWhile_not_pySpace h

theorem pyStrip_eq_self {l : List Char}
    (hh : ∀ c, l.head? = some c → isPySpace c = false)
    (hl : ∀ c, l.getLast? = some c → isPySpace c = false) :
    pyStrip l = l := by
  cases l with
  | nil => rfl
  | cons a l' =>
    have h1 : (a :: l').dropWhile isPySpace = a :: l' := by
      rw [List.dropWhile_cons, hh a (by simp)]
      simp
    rw [pyStrip, h1]
    have hne : (a :: l').reverse ≠ [] := by simp
    have h2 : (a :: l').reverse.dropWhile isPySpace = (a :: l').reverse := by
      cases hr : (a :: l').reverse with
      | nil => exact absurd hr hne
      | cons b r' =>
        rw [List.dropWhile_cons]
        have : (a :: l').getLast? = some b := by
          rw [← List.head?_reverse, hr]; rfl
        rw [hl b this]
        simp
    rw [h2, List.reverse_reverse]

theorem mem_dropWhile_of_not {l : List Char} {c : Char} (hm : c ∈ l)
    (hc : isPySpace c = false) : c ∈ l.dropWhile isPySpace := by
  induction l with
  | nil => simp at hm
  | cons a l' ih =>
    rw [List.dropWhile_cons]
    by_cases ha : isPySpace a
    · rw [ha]
      simp only [if_true]
      rcases List.mem_cons.mp hm with h | h
      · subst h; rw [hc] at ha; simp at ha
      · exact ih h
    · simp [ha, hm]

theorem mem_pyStrip_of_not_space {l : List Char} {c : Char} (hm : c ∈ l)
    (hc : isPySpace c = false) : c ∈ pyStrip l := by
  rw [pyStrip, List.mem_reverse]
  exact mem_dropWhile_of_not
    (List.mem_reverse.mpr (mem_dropWhile_of_not hm hc)) hc

theorem pyStrip_ne_nil_iff (l : List Char) :
    pyStrip l ≠ [] ↔ ∃ c ∈ l, isPySpace c = false := by
  constructor
  · intro hne
    have hc := List.head?_eq_head hne
    refine ⟨(pyStrip l).head hne,
      (pyStrip_sublist l).mem (List.head_mem hne), ?_⟩
    exact isPySpace_head_pyStrip hc
  · rintro ⟨c, hmem, hc⟩
    intro hnil
    have := mem_pyStrip_of_not_space hmem hc
    rw [hnil] at this
    simp at this

theorem splitOnNl_joinNl {Ms : List (List Char)} (hne : Ms ≠ [])
    (hnl : ∀ M ∈ Ms, '\n' ∉ M) : splitOnNl (joinNl Ms) = Ms := by
  induction Ms with
  | nil => exact absurd rfl hne
  | cons M Ms' ih =>
    cases Ms' with
    | nil => exact splitOnNl_of_no_nl (hnl M (List.mem_cons_self _ _))
    | cons M2 Ms'' =>
      rw [joinNl_cons (by simp),
        splitOnNl_append_nl _ (hnl M (List.mem_cons_self _ _)),
        ih (by simp) (fun N hN => hnl N (List.mem_cons_of_mem M hN))]

theorem clean_text_eq_joinNl_canonLines (s : List Char) :
    clean_text s = joinNl (canonLines s) :=
  collapseSpaces_joinNl _

theorem mem_canonLines {s M : List Char} (hM : M ∈ canonLines s) :
    M ≠ [] ∧ '\n' ∉ M ∧ pyStrip M = M ∧ collapseSpaces M = M := by
  rw [canonLines] at hM
  obtain ⟨N, hN, rfl⟩ := List.mem_map.mp hM
  have hNf := List.mem_filter.mp hN
  obtain ⟨L, hL, rfl⟩ := List.mem_map.mp hNf.1
  have hNne : pyStrip L ≠ [] := by simpa using hNf.2
  have hnlL : '\n' ∉ L := nl_not_mem_splitOnNl hL
  have hsub : List.Sublist (collapseSpaces (pyStrip L)) L :=
    (collapseSpaces_sublist _).trans (pyStrip_sublist _)
  refine ⟨collapseSpaces_ne_nil hNne, ?_, ?_, collapseSpaces_idem _⟩
  · exact fun hmem => hnlL (hsub.mem hmem)
  · apply pyStrip_eq_self
    · intro c hc
      rw [collapseSpaces_head? (pyStrip L)] at hc
      exact isPySpace_head_pyStrip hc
    · intro c hc
      have hLa := List.getLast?_eq_getLast (pyStrip L) hNne
      have hd : isPySpace ((pyStrip L).getLast hNne) = false :=
        isPySpace_getLast_pyStrip hLa
      have hdsp : (pyStrip L).getLast hNne ≠ ' ' := by
        intro h; rw [h] at hd; simp [isPySpace] at hd
      have hkeep := collapseSpaces_getLast?_keep hLa hdsp
      rw [hc] at hkeep
      injection hkeep with hcd
      rw [hcd]
      exact hd

theorem clean_text_idem (s : List Char) :
    clean_text (clean_text s) = clean_text s := by
  rw [clean_text_eq_joinNl_canonLines s]
  cases hC : canonLines s with
  | nil => decide
  | cons M Ms' =>
    have hmem : ∀ N ∈ M :: Ms',
        N ≠ [] ∧ '\n' ∉ N ∧ pyStrip N = N ∧ collapseSpaces N = N :=
      fun N hN => mem_canonLines (by rw [hC]; exact hN)
    rw [clean_text]
    rw [splitOnNl_joinNl (by simp) (fun N hN => (hmem N hN).2.1)]
    rw [show (M :: Ms').map pyStrip = M :: Ms' by
      rw [List.map_congr_left (fun N hN => (hmem N hN).2.2.1)]
      exact List.map_id _]
    rw [List.filter_eq_self.mpr (fun N hN => by simp [(hmem N hN).1])]
    rw [collapseSpaces_joinNl]
    rw [show (M :: Ms').map collapseSpaces = M :: Ms' by
      rw [List.map_congr_left (fun N hN => (hmem N hN).2.2.2)]
      exact List.map_id _]

theorem mem_splitOnNl_decomp {s : List Char} {c : Char} (hc : c ∈ s)
    (hnl : c ≠ '\n') : ∃ L ∈ splitOnNl s, c ∈ L := by
  induction s with
  | nil => simp at hc
  | cons a rest ih =>
    by_cases ha : a = '\n'
    · subst ha
      rcases List.mem_cons.mp hc with h | h
      · exact absurd h hnl
      · obtain ⟨L, hL, hcL⟩ := ih h
        exact ⟨L, by
          rw [show splitOnNl ('\n' :: rest) = [] :: splitOnNl rest by
              simp [splitOnNl]]
          exact List.mem_cons_of_mem _ hL, hcL⟩
    · cases h2 : splitOnNl rest with
      | nil => exact absurd h2 (splitOnNl_ne_nil rest)
      | cons l ls =>
        rw [splitOnNl_cons_of_ne ha h2]
        rcases List.mem_cons.mp hc with h | h
        · exact ⟨a :: l, List.mem_cons_self _ _, h ▸ List.mem_cons_self _ _⟩
        · obtain ⟨L, hL, hcL⟩ := ih h
          rw [h2] at hL
          rcases List.mem_cons.mp hL with hL | hL
          · exact ⟨a :: l, List.mem_cons_self _ _,
              List.mem_cons_of_mem a (hL ▸ hcL)⟩
          · exact ⟨L, List.mem_cons_of_mem _ hL, hcL⟩

theorem mem_collapseSpaces_of_ne_space :
    ∀ {l : List Char} {c : Char}, c ∈ l → c ≠ ' ' → c ∈ collapseSpaces l
  | [], c, hc, _ => by simp at hc
  | [a], c, hc, _ => by simpa [collapseSpaces] using hc
  | c1 :: c2 :: rest, c, hc, hsp => by
    by_cases h : c1 = ' ' ∧ c2 = ' '
    · rw [show collapseSpaces (c1 :: c2 :: rest) = collapseSpaces (c2 :: rest)
          by simp [collapseSpaces, h]]
      rcases List.mem_cons.mp hc with hcc | hcc
      · exact absurd (hcc.trans h.1) hsp
      · exact mem_collapseSpaces_of_ne_space hcc hsp
    · rw [show collapseSpaces (c1 :: c2 :: rest)
            = c1 :: collapseSpaces (c2 :: rest)
          by simp [collapseSpaces, h]]
      rcases List.mem_cons.mp hc with hcc | hcc
      · exact hcc ▸ List.mem_cons_self _ _
      · exact List.mem_cons_of_mem c1
          (mem_collapseSpaces_of_ne_space hcc hsp)

theorem mem_joinNl : ∀ {Ms : List (List Char)} {M : List Char} {c : Char},
    M ∈ Ms → c ∈ M → c ∈ joinNl Ms
  | [], M, c, hM, _ => by simp at hM
  | [N], M, c, hM, hc => by
    rcases List.mem_cons.mp hM with h | h
    · exact h ▸ hc
    · simp at h
  | N :: N2 :: Ns, M, c, hM, hc => by
    rw [joinNl_cons (by simp)]
    rcases List.mem_cons.mp hM with h | h
    · exact List.mem_append.mpr (Or.inl (h ▸ hc))
    · exact List.mem_append.mpr
        (Or.inr (List.mem_cons_of_mem _ (mem_joinNl h hc)))

theorem mem_joinBlankLine :
    ∀ {Ms : List (List Char)} {M : List Char} {c : Char},
    M ∈ Ms → c ∈ M → c ∈ joinBlankLine Ms
  | [], M, c, hM, _ => by simp at hM
  | [N], M, c, hM, hc => by
    rcases List.mem_cons.mp hM with h | h
    · exact h ▸ hc
    · simp at h
  | N :: N2 :: Ns, M, c, hM, hc => by
    rw [show joinBlankLine (N :: N2 :: Ns)
          = N ++ '\n' :: '\n' :: joinBlankLine (N2 :: Ns) from rfl]
    rcases List.mem_cons.mp hM with h | h
    · exact List.mem_append.mpr (Or.inl (h ▸ hc))
    · exact List.mem_append.mpr (Or.inr (List.mem_cons_of_mem _
        (List.mem_cons_of_mem _ (mem_joinBlankLine h hc))))

theorem mem_clean_text_of_nonspace {s : List Char} {c : Char} (hc : c ∈ s)
    (hns : isPySpace c = false) : c ∈ clean_text s := by
  have hnl : c ≠ '\n' := by
    intro h; rw [h] at hns; simp [isPySpace] at hns
  have hsp : c ≠ ' ' := by
    intro h; rw [h] at hns; simp [isPySpace] at hns
  obtain ⟨L, hL, hcL⟩ := mem_splitOnNl_decomp hc hnl
  have hcstrip : c ∈ pyStrip L := mem_pyStrip_of_not_space hcL hns
  have hstripne : pyStrip L ≠ [] := by
    intro h; rw [h] at hcstrip; simp at hcstrip
  have hM : collapseSpaces (pyStrip L) ∈ canonLines s := by
    rw [canonLines]
    refine List.mem_map.mpr ⟨pyStrip L, ?_, rfl⟩
    refine List.mem_filter.mpr ⟨List.mem_map.mpr ⟨L, hL, rfl⟩, by simp [hstripne]⟩
  rw [clean_text_eq_joinNl_canonLines]
  exact mem_joinNl hM (mem_collapseSpaces_of_ne_space hcstrip hsp)

theorem collectParts_eq_nonBlankFragments :
    ∀ pages, collectParts pages = nonBlankFragments pages
  | [] => rfl
  | none :: rest => by
    rw [show collectParts (none :: rest) = collectParts rest from rfl,
      collectParts_eq_nonBlankFragments rest]
    rfl
  | some t :: rest => by
    by_cases h : pyStrip t = []
    · rw [show collectParts (some t :: rest) = collectParts rest by
        simp [collectParts, h]]
      rw [collectParts_eq_nonBlankFragments rest]
      simp [nonBlankFragments, h]
    · rw [show collectParts (some t :: rest) = t :: collectParts rest by
        simp [collectParts, h]]
      rw [collectParts_eq_nonBlankFragments rest]
      simp [nonBlankFragments, h]

theorem mem_collectParts_strip_ne :
    ∀ {pages : List (Option (List Char))} {M : List Char},
    M ∈ collectParts pages → pyStrip M ≠ []
  | [], M, hM => by simp [collectParts] at hM
  | none :: rest, M, hM => @mem_collectParts_strip_ne rest M hM
  | some t :: rest, M, hM => by
    by_cases h : pyStrip t = []
    · rw [show collectParts (some t :: rest) = collectParts rest by
        simp [collectParts, h]] at hM
      exact mem_collectParts_strip_ne hM
    · rw [show collectParts (some t :: rest) = t :: collectParts rest by
        simp [collectParts, h]] at hM
      rcases List.mem_cons.mp hM with hMt | hMt
      · exact hMt ▸ h
      · exact mem_collectParts_strip_ne hMt

theorem collectParts_eq_nil_of_blank :
    ∀ {pages : List (Option (List Char))},
    (∀ p ∈ pages, ∀ t, p = some t → pyStrip t = []) → collectParts pages = []
  | [], _ => rfl
  | none :: rest, h =>
    @collectParts_eq_nil_of_blank rest
      (fun p hp t ht => h p (List.mem_cons_of_mem _ hp) t ht)
  | some t :: rest, h => by
    have ht : pyStrip t = [] := h (some t) (List.mem_cons_self _ _) t rfl
    rw [show collectParts (some t :: rest) = collectParts rest by
      simp [collectParts, ht]]
    exact @collectParts_eq_nil_of_blank rest
      (fun p hp u hu => h p (List.mem_cons_of_mem _ hp) u hu)

theorem extract_error_is_processing {o : OpenResult} {e : PyExc}
    (h : extract_text_from_bytes o = .error e) :
    ∃ m, e = .pdfProcessingError m := by
  cases o with
  | fileDataError =>
    simp only [extract_text_from_bytes, Except.error.injEq] at h
    exact ⟨_, h.symm⟩
  | otherError m =>
    simp only [extract_text_from_bytes, Except.error.injEq] at h
    exact ⟨_, h.symm⟩
  | ok doc =>
    rw [extract_text_from_bytes] at h
    split at h
    · exact ⟨_, (Except.error.inj h).symm⟩
    · split at h
      · exact ⟨_, (Except.error.inj h).symm⟩
      · dsimp only at h
        split at h
        · exact ⟨_, (Except.error.inj h).symm⟩
        · simp at h

theorem extract_error_ne_no_text {o : OpenResult} {e : PyExc}
    (h : extract_text_from_bytes o = .error e) :
    e ≠ .pdfProcessingError "No text content found in PDF" := by
  cases o with
  | fileDataError =>
    simp only [extract_text_from_bytes, Except.error.injEq] at h
    rw [← h]
    intro hc
    injection hc with hc
    simp at hc
  | otherError m =>
    simp only [extract_text_from_bytes, Except.error.injEq] at h
    rw [← h]
    intro hc
    injection hc with hc
    have h2 := congrArg String.data hc
    simp at h2
  | ok doc =>
    rw [extract_text_from_bytes] at h
    split at h
    · rw [← Except.error.inj h]
      intro hc
      injection hc with hc
      simp at hc
    · split at h
      · rw [← Except.error.inj h]
        intro hc
        injection hc with hc
        simp at hc
      · dsimp only at h
        split at h
        · rw [← Except.error.inj h]
          intro hc
          injection hc with hc
          simp at hc
        · simp at h

theorem extract_ok_inv {o : OpenResult} {t : List Char}
    (h : extract_text_from_bytes o = .ok t) :
    ∃ doc, o = .ok doc ∧ doc.is_encrypted = false ∧ doc.pages.length ≠ 0 ∧
      collectParts doc.pages ≠ [] ∧
      t = clean_text (joinBlankLine (collectParts doc.pages)) := by
  cases o with
  | fileDataError => simp [extract_text_from_bytes] at h
  | otherError m => simp [extract_text_from_bytes] at h
  | ok doc =>
    rw [extract_text_from_bytes] at h
    split at h
    · simp at h
    · split at h
      · simp at h
      · dsimp only at h
        split at h
        · simp at h
        · rename_i henc hlen hparts
          refine ⟨doc, rfl, ?_, hlen, hparts, (Except.ok.inj h).symm⟩
          simpa using henc

theorem extract_ok_nonspace {o : OpenResult} {t : List Char}
    (h : extract_text_from_bytes o = .ok t) :
    ∃ c ∈ t, isPySpace c = false := by
  obtain ⟨doc, -, -, -, hparts, rfl⟩ := extract_ok_inv h
  obtain ⟨M, hM⟩ := List.exists_mem_of_ne_nil _ hparts
  obtain ⟨c, hcM, hc⟩ := (pyStrip_ne_nil_iff M).mp (mem_collectParts_strip_ne hM)
  exact ⟨c, mem_clean_text_of_nonspace (mem_joinBlankLine hM hcM) hc, hc⟩

theorem handlePipelineExc_domain (rt : Nat) (e : PyExc) :
    isDomainExc (handlePipelineExc rt e) = true := by
  cases e <;> rfl

theorem handlePipelineExc_of_domain (rt : Nat) {e : PyExc}
    (h : isDomainExc e = true) : handlePipelineExc rt e = e := by
  cases e <;> first | rfl | simp [isDomainExc] at h

theorem extract_text_from_url_error_dl (rt : Nat) (e : PyExc) :
    extract_text_from_url rt (.error e)
      = .error (handlePipelineExc rt e) := rfl

theorem extract_text_from_url_extract_error (rt : Nat) {opened : OpenResult}
    {e : PyExc} (h : extract_text_from_bytes opened = .error e) :
    extract_text_from_url rt (.ok opened)
      = .error (handlePipelineExc rt e) := by
  rw [extract_text_from_url]
  simp only [h]

theorem extract_text_from_url_extract_ok (rt : Nat) {opened : OpenResult}
    {t : List Char} (h : extract_text_from_bytes opened = .ok t) :
    extract_text_from_url rt (.ok opened)
      = if pyStrip t = [] then
          .error (.pdfProcessingError "No text content found in PDF")
        else .ok (pyStrip t) := by
  rw [extract_text_from_url]
  simp only [h]
  by_cases hs : pyStrip t = []
  · simp [hs, handlePipelineExc]
  · simp [hs]

theorem read_go_ok {limit : Nat} :
    ∀ (chunks : List (List Nat)) (acc : List Nat),
      acc.length + chunks.flatten.length ≤ limit →
      read_with_limit_go limit chunks acc = .ok (acc ++ chunks.flatten)
  | [], acc, _ => by simp [read_with_limit_go]
  | c :: rest, acc, h => by
    rw [read_with_limit_go]
    rw [if_neg (by simp [List.flatten_cons] at h ⊢; omega)]
    rw [read_go_ok rest (acc ++ c)
      (by simp [List.flatten_cons] at h ⊢; omega)]
    simp [List.flatten_cons]

theorem read_go_error {limit : Nat} :
    ∀ (chunks : List (List Nat)) (acc : List Nat),
      acc.length ≤ limit → limit < acc.length + chunks.flatten.length →
      read_with_limit_go limit chunks acc =
        .error (.urlError ("File exceeds maximum size limit of " ++
          toString limit ++ " bytes"))
  | [], acc, h1, h2 => by simp at h2; omega
  | c :: rest, acc, h1, h2 => by
    rw [read_with_limit_go]
    by_cases hlt : limit < (acc ++ c).length
    · rw [if_pos hlt]
    · rw [if_neg hlt]
      exact read_go_error rest (acc ++ c)
        (by simp at hlt ⊢; omega)
        (by simp [List.flatten_cons] at h2 ⊢; omega)

theorem read_go_error_shape {limit : Nat} :
    ∀ {chunks : List (List Nat)} {acc : List Nat} {e : PyExc},
      read_with_limit_go limit chunks acc = .error e → ∃ m, e = .urlError m
  | [], _, _, h => by simp [read_with_limit_go] at h
  | c :: rest, acc, e, h => by
    rw [read_with_limit_go] at h
    split at h
    · exact ⟨_, (Except.error.inj h).symm⟩
    · exact read_go_error_shape h

theorem read_with_limit_ok {chunks : List (List Nat)} {limit : Nat}
    (h : chunks.flatten.length ≤ limit) :
    read_with_limit chunks limit = .ok chunks.flatten := by
  rw [read_with_limit, read_go_ok chunks [] (by simpa using h)]
  simp

theorem read_with_limit_error {chunks : List (List Nat)} {limit : Nat}
    (h : limit < chunks.flatten.length) :
    read_with_limit chunks limit =
      .error (.urlError ("File exceeds maximum size limit of " ++
        toString limit ++ " bytes")) :=
  read_go_error chunks [] (by simp) (by simpa using h)

theorem download_error_domain {resp : HttpResponse} {max_file_size : Nat}
    {e : PyExc} (h : download_pdf resp max_file_size = .error e) :
    isDomainExc e = true := by
  have hbody : ∀ e', download_body resp max_file_size = .error e' →
      isDomainExc e' = true := by
    intro e' h'
    rw [download_body] at h'
    cases hr : read_with_limit resp.chunks max_file_size with
    | error e2 =>
      rw [hr] at h'
      obtain ⟨m, rfl⟩ := read_go_error_shape hr
      rw [← Except.error.inj h']
      rfl
    | ok content =>
      rw [hr] at h'
      dsimp only at h'
      split at h'
      · rw [← Except.error.inj h']
        rfl
      · simp at h'
  rw [download_pdf] at h
  split at h
  · rw [← Except.error.inj h]; rfl
  · split at h
    · rename_i n hn
      split at h
      · rw [← Except.error.inj h]; rfl
      · exact hbody e h
    · exact hbody e h

theorem dictInsert_fresh {V : Type} {k : String} {v : V}
    {d : List (String × V)} (h : ∀ p ∈ d, p.1 ≠ k) :
    dictInsert k v d = d ++ [(k, v)] := by
  rw [dictInsert, if_neg]
  intro hc
  simp only [List.any_eq_true, decide_eq_true_eq] at hc
  obtain ⟨p, hp, hpk⟩ := hc
  exact h p hp hpk

theorem batch_foldl_eq (f : String → Except String (List Char)) :
    ∀ (order : List String) (acc1 : List (String × List Char))
      (acc2 : List (String × String)),
      order.Nodup →
      (∀ u ∈ order, (∀ p ∈ acc1, p.1 ≠ u) ∧ (∀ p ∈ acc2, p.1 ≠ u)) →
      order.foldl (batchStep f) (acc1, acc2)
        = (acc1 ++ okPairs f order, acc2 ++ errPairs f order) := by
  intro order
  induction order with
  | nil => intro acc1 acc2 _ _; simp [okPairs, errPairs]
  | cons u order' ih =>
    intro acc1 acc2 hnd hfresh
    have hu := hfresh u (List.mem_cons_self _ _)
    have hnd' := List.nodup_cons.mp hnd
    have hnotmem : u ∉ order' := hnd'.1
    rw [List.foldl_cons]
    cases hf : f u with
    | ok t =>
      rw [show batchStep f (acc1, acc2) u = (acc1 ++ [(u, t)], acc2) by
        rw [batchStep, hf]
        dsimp only
        rw [dictInsert_fresh hu.1]]
      rw [ih (acc1 ++ [(u, t)]) acc2 hnd'.2 ?_]
      · rw [show okPairs f (u :: order') = (u, t) :: okPairs f order' by
          simp [okPairs, List.filterMap_cons, hf]]
        rw [show errPairs f (u :: order') = errPairs f order' by
          simp [errPairs, List.filterMap_cons, hf]]
        simp
      · intro v hv
        refine ⟨?_, (hfresh v (List.mem_cons_of_mem _ hv)).2⟩
        intro p hp
        rcases List.mem_append.mp hp with hp | hp
        · exact (hfresh v (List.mem_cons_of_mem _ hv)).1 p hp
        · simp only [List.mem_singleton] at hp
          rw [hp]
          intro hc
          have hc2 : u = v := hc
          exact hnotmem (by rw [hc2]; exact hv)
    | error e =>
      rw [show batchStep f (acc1, acc2) u = (acc1, acc2 ++ [(u, e)]) by
        rw [batchStep, hf]
        dsimp only
        rw [dictInsert_fresh hu.2]]
      rw [ih acc1 (acc2 ++ [(u, e)]) hnd'.2 ?_]
      · rw [show okPairs f (u :: order') = okPairs f order' by
          simp [okPairs, List.filterMap_cons, hf]]
        rw [show errPairs f (u :: order') = (u, e) :: errPairs f order' by
          simp [errPairs, List.filterMap_cons, hf]]
        simp
      · intro v hv
        refine ⟨(hfresh v (List.mem_cons_of_mem _ hv)).1, ?_⟩
        intro p hp
        rcases List.mem_append.mp hp with hp | hp
        · exact (hfresh v (List.mem_cons_of_mem _ hv)).2 p hp
        · simp only [List.mem_singleton] at hp
          rw [hp]
          intro hc
          have hc2 : u = v := hc
          exact hnotmem (by rw [hc2]; exact hv)

theorem okPairs_add_errPairs_length (f : String → Except String (List Char)) :
    ∀ order : List String,
      (okPairs f order).length + (errPairs f order).length = order.length
  | [] => rfl
  | u :: order' => by
    have ih := okPairs_add_errPairs_length f order'
    cases hf : f u with
    | ok t =>
      simp only [okPairs, errPairs, List.filterMap_cons, hf] at *
      simp only [List.length_cons]
      omega
    | error e =>
      simp only [okPairs, errPairs, List.filterMap_cons, hf] at *
      simp only [List.length_cons]
      omega

theorem mem_okPairs {f : String → Except String (List Char)}
    {order : List String} {u : String} {t : List Char} :
    (u, t) ∈ okPairs f order ↔ u ∈ order ∧ f u = .ok t := by
  rw [okPairs, List.mem_filterMap]
  constructor
  · rintro ⟨v, hv, hx⟩
    cases hf : f v with
    | ok s =>
      rw [hf] at hx
      simp only [Option.some.injEq, Prod.mk.injEq] at hx
      exact ⟨hx.1 ▸ hv, by rw [hx.1] at hf; rw [hf, hx.2]⟩
    | error e => rw [hf] at hx; simp at hx
  · rintro ⟨h1, h2⟩
    exact ⟨u, h1, by rw [h2]⟩

theorem mem_errPairs {f : String → Except String (List Char)}
    {order : List String} {u : String} {e : String} :
    (u, e) ∈ errPairs f order ↔ u ∈ order ∧ f u = .error e := by
  rw [errPairs, List.mem_filterMap]
  constructor
  · rintro ⟨v, hv, hx⟩
    cases hf : f v with
    | ok s => rw [hf] at hx; simp at hx
    | error e2 =>
      rw [hf] at hx
      simp only [Option.some.injEq, Prod.mk.injEq] at hx
      exact ⟨hx.1 ▸ hv, by rw [hx.1] at hf; rw [hf, hx.2]⟩
  · rintro ⟨h1, h2⟩
    exact ⟨u, h1, by rw [h2]⟩

/-- Claim C3: `_clean_text` is idempotent — applying the normalization to its
own output returns it unchanged, for every input string. -/
theorem claim_C3_clean_text_idempotent (s : List Char) :
    clean_text (clean_text s) = clean_text s :=
  clean_text_idem s

/-- Claim C8: `_clean_text` equals the spec's reference normalization (split
on line boundaries, trim each line, drop emptied lines, rejoin with single
newlines, collapse interior space runs), and on the spec's concrete example
it returns "Line 1\nLine 2\nLine 3". -/
theorem claim_C8_clean_text_matches_reference :
    (∀ s, clean_text s = normalizeSpec s)
    ∧ clean_text ("  Line 1  \n\n  \n  Line 2   \n\n\n  Line 3  ".toList)
        = "Line 1\nLine 2\nLine 3".toList :=
  ⟨fun s => clean_text_eq_joinNl_canonLines s, by decide⟩

/-- Claim C6: the extractor's error checks fire in order — an encrypted
document fails with the "encrypted" message regardless of its pages, a
non-encrypted zero-page document fails with "PDF has no pages", and a
non-encrypted non-empty document in which every page raises or yields only
blank text fails with "No readable text found in PDF". -/
theorem claim_C6_extract_error_order (doc : PdfDoc) :
    (doc.is_encrypted = true →
      extract_text_from_bytes (.ok doc)
        = .error (.pdfProcessingError "PDF is encrypted and cannot be processed"))
    ∧ (doc.is_encrypted = false → doc.pages.length = 0 →
      extract_text_from_bytes (.ok doc)
        = .error (.pdfProcessingError "PDF has no pages"))
    ∧ (doc.is_encrypted = false → doc.pages.length ≠ 0 →
      (∀ p ∈ doc.pages, ∀ t, p = some t → pyStrip t = []) →
      extract_text_from_bytes (.ok doc)
        = .error (.pdfProcessingError "No readable text found in PDF")) := by
  refine ⟨fun h => by simp [extract_text_from_bytes, h],
    fun h1 h2 => by simp [extract_text_from_bytes, h1, h2],
    fun h1 h2 h3 => ?_⟩
  have hcoll := collectParts_eq_nil_of_blank h3
  simp [extract_text_from_bytes, h1, h2, hcoll]

/-- Witness for C6 at three concrete documents: an encrypted document, a
zero-page document, and a two-page document whose pages are blank or
raising. -/
theorem claim_C6_extract_error_order_witness :
    extract_text_from_bytes (.ok ⟨true, [some ('a' :: [])]⟩)
      = .error (.pdfProcessingError "PDF is encrypted and cannot be processed")
    ∧ extract_text_from_bytes (.ok ⟨false, []⟩)
      = .error (.pdfProcessingError "PDF has no pages")
    ∧ extract_text_from_bytes (.ok ⟨false, [some (' ' :: []), none]⟩)
      = .error (.pdfProcessingError "No readable text found in PDF") :=
  ⟨(claim_C6_extract_error_order ⟨true, [some ('a' :: [])]⟩).1 rfl,
   (claim_C6_extract_error_order ⟨false, []⟩).2.1 rfl rfl,
   (claim_C6_extract_error_order ⟨false, [some (' ' :: []), none]⟩).2.2
     rfl (by decide) (by decide)⟩

/-- Counterexample for C2: on a three-page document where the middle page
raises and the two others yield "Page one"/"Page two", the extractor does
NOT return the blank-line-separated concatenation of the fragments — the
final `_clean_text` pass collapses the `"\n\n"` separator to a single
newline. -/
theorem claim_C2_counterexample :
    extract_text_from_bytes (.ok ⟨false,
      [some ("Page one".toList), none, some ("Page two".toList)]⟩)
    ≠ .ok (joinBlankLine (nonBlankFragments
      [some ("Page one".toList), none, some ("Page two".toList)])) := by
  intro h
  have h1 : extract_text_from_bytes (.ok ⟨false,
      [some ("Page one".toList), none, some ("Page two".toList)]⟩)
      = .ok ("Page one\nPage two".toList) := by rfl
  rw [h1] at h
  exact absurd (Except.ok.inj h) (by decide)

/-- Claim C2 (amended): each raising page is skipped without aborting the
document, and the extractor returns `_clean_text` applied to the blank-line
concatenation of the non-blank fragments of the remaining pages, in page
order. -/
theorem claim_C2_partial_page_failure (doc : PdfDoc)
    (henc : doc.is_encrypted = false) (hpages : doc.pages ≠ [])
    (hfrag : nonBlankFragments doc.pages ≠ []) :
    extract_text_from_bytes (.ok doc)
      = .ok (clean_text (joinBlankLine (nonBlankFragments doc.pages))) := by
  have hlen : doc.pages.length ≠ 0 := by
    simpa using fun h => hpages (List.length_eq_zero.mp h)
  have hcp : collectParts doc.pages ≠ [] := by
    rw [collectParts_eq_nonBlankFragments]; exact hfrag
  simp [extract_text_from_bytes, henc, hlen,
    collectParts_eq_nonBlankFragments, hfrag]

/-- Witness for C2 at the three-page document of the counterexample: one
page raises, two succeed, and the result is the two successful pages' text
joined by a single newline. -/
theorem claim_C2_partial_page_failure_witness :
    extract_text_from_bytes (.ok ⟨false,
      [some ("Page one".toList), none, some ("Page two".toList)]⟩)
      = .ok (clean_text (joinBlankLine (nonBlankFragments
          [some ("Page one".toList), none, some ("Page two".toList)])))
    ∧ clean_text (joinBlankLine (nonBlankFragments
        [some ("Page one".toList), none, some ("Page two".toList)]))
      = "Page one\nPage two".toList :=
  ⟨claim_C2_partial_page_failure
      ⟨false, [some ("Page one".toList), none, some ("Page two".toList)]⟩
      rfl (by decide) (by decide),
   by decide⟩

/-- Claim C10: whenever the extractor succeeds its result contains a
non-whitespace character, hence the pipeline's post-extraction emptiness
check ("No text content found in PDF") can never fire once the download
step has succeeded, and every successful pipeline result is non-empty. -/
theorem claim_C10_no_text_check_unreachable (rt : Nat) :
    (∀ o t, extract_text_from_bytes o = .ok t →
      ∃ c ∈ t, isPySpace c = false)
    ∧ (∀ opened, extract_text_from_url rt (.ok opened)
        ≠ .error (.pdfProcessingError "No text content found in PDF"))
    ∧ (∀ dl t, extract_text_from_url rt dl = .ok t → t ≠ []) := by
  refine ⟨fun o t h => extract_ok_nonspace h, fun opened => ?_, ?_⟩
  · cases hx : extract_text_from_bytes opened with
    | error e =>
      rw [extract_text_from_url_extract_error rt hx]
      obtain ⟨m, rfl⟩ := extract_error_is_processing hx
      intro hc
      exact extract_error_ne_no_text hx (Except.error.inj hc)
    | ok t =>
      have hstr : pyStrip t ≠ [] := by
        obtain ⟨c, hct, hc⟩ := extract_ok_nonspace hx
        exact (pyStrip_ne_nil_iff t).mpr ⟨c, hct, hc⟩
      rw [extract_text_from_url_extract_ok rt hx, if_neg hstr]
      simp
  · intro dl t h
    cases dl with
    | error e =>
      rw [extract_text_from_url_error_dl] at h
      simp at h
    | ok opened =>
      cases hx : extract_text_from_bytes opened with
      | error e =>
        rw [extract_text_from_url_extract_error rt hx] at h
        simp at h
      | ok u =>
        rw [extract_text_from_url_extract_ok rt hx] at h
        by_cases hs : pyStrip u = []
        · rw [if_pos hs] at h; simp at h
        · rw [if_neg hs] at h
          rw [← Except.ok.inj h]
          exact hs

/-- Witness for C10 at a one-page document yielding "hi": the extraction
result contains a non-space character, the pipeline does not raise the
post-extraction emptiness error on an open failure, and the successful
pipeline result is non-empty. -/
theorem claim_C10_no_text_check_unreachable_witness :
    (∃ c ∈ ("hi".toList), isPySpace c = false)
    ∧ extract_text_from_url 30 (.ok .fileDataError)
        ≠ .error (.pdfProcessingError "No text content found in PDF")
    ∧ ("hi".toList : List Char) ≠ [] :=
  ⟨(claim_C10_no_text_check_unreachable 30).1
      (.ok ⟨false, [some ("hi".toList)]⟩) ("hi".toList) (by rfl),
   (claim_C10_no_text_check_unreachable 30).2.1 .fileDataError,
   (claim_C10_no_text_check_unreachable 30).2.2
      (.ok (.ok ⟨false, [some ("hi".toList)]⟩)) ("hi".toList) (by rfl)⟩

/-- Claim C7: the pipeline boundary propagates already-classified domain
errors (URLError, TimeoutError, PDFProcessingError) unchanged — whether
raised by the download step or by the extraction step — wraps any
unclassified exception as PDFProcessingError "Unexpected error: ...", every
error leaving the pipeline is domain-classified, and the download step
itself only emits domain-classified errors. -/
theorem claim_C7_error_classification (rt : Nat) :
    (∀ e, isDomainExc e = true →
      extract_text_from_url rt (.error e) = .error e)
    ∧ (∀ opened e, extract_text_from_bytes opened = .error e →
      extract_text_from_url rt (.ok opened) = .error e)
    ∧ (∀ ty m, extract_text_from_url rt (.error (.other ty m))
        = .error (.pdfProcessingError ("Unexpected error: " ++ m)))
    ∧ (∀ dl e, extract_text_from_url rt dl = .error e →
        isDomainExc e = true)
    ∧ (∀ resp mfs e, download_pdf resp mfs = .error e →
        isDomainExc e = true) := by
  refine ⟨fun e he => ?_, fun opened e he => ?_, fun ty m => rfl,
    fun dl e h => ?_, fun resp mfs e h => download_error_domain h⟩
  · rw [extract_text_from_url_error_dl, handlePipelineExc_of_domain rt he]
  · rw [extract_text_from_url_extract_error rt he]
    obtain ⟨m, rfl⟩ := extract_error_is_processing he
    rfl
  · cases dl with
    | error e0 =>
      rw [extract_text_from_url_error_dl] at h
      rw [← Except.error.inj h]
      exact handlePipelineExc_domain rt e0
    | ok opened =>
      cases hx : extract_text_from_bytes opened with
      | error e1 =>
        rw [extract_text_from_url_extract_error rt hx] at h
        rw [← Except.error.inj h]
        exact handlePipelineExc_domain rt e1
      | ok t =>
        rw [extract_text_from_url_extract_ok rt hx] at h
        by_cases hs : pyStrip t = []
        · rw [if_pos hs] at h
          rw [← Except.error.inj h]
          rfl
        · rw [if_neg hs] at h
          simp at h

/-- Witness for C7: a URLError propagates unchanged, an extraction failure
propagates unchanged, an unexpected ValueError is wrapped with the
"Unexpected error" prefix, an error leaving the pipeline is classified, and
a non-200 download failure is classified. -/
theorem claim_C7_error_classification_witness :
    extract_text_from_url 30 (.error (.urlError "boom"))
      = .error (.urlError "boom")
    ∧ extract_text_from_url 30 (.ok .fileDataError)
      = .error (.pdfProcessingError "Invalid or corrupted PDF file")
    ∧ extract_text_from_url 30 (.error (.other "ValueError" "bad header"))
      = .error (.pdfProcessingError ("Unexpected error: " ++ "bad header"))
    ∧ isDomainExc (.urlError "boom") = true
    ∧ isDomainExc (.urlError ("HTTP " ++ toString 500 ++ ": " ++ "ISE"))
      = true :=
  ⟨(claim_C7_error_classification 30).1 (.urlError "boom") rfl,
   (claim_C7_error_classification 30).2.1 .fileDataError
      (.pdfProcessingError "Invalid or corrupted PDF file") rfl,
   (claim_C7_error_classification 30).2.2.1 "ValueError" "bad header",
   (claim_C7_error_classification 30).2.2.2.1
      (.error (.urlError "boom")) (.urlError "boom") (by rfl),
   (claim_C7_error_classification 30).2.2.2.2
      ⟨500, "ISE", none, none, []⟩ 10
      (.urlError ("HTTP " ++ toString 500 ++ ": " ++ "ISE")) (by rfl)⟩

/-- Claim C4: when the response declares a content-length n strictly above
the size limit, `_download_pdf` fails with URLError "File too large: n
bytes", and it does so without reading the body — the outcome is the same
for every body. -/
theorem claim_C4_declared_length_too_large (resp : HttpResponse)
    (n max_file_size : Nat) (body2 : List (List Nat))
    (hstatus : resp.status = 200) (hlen : resp.content_length = some n)
    (hbig : max_file_size < n) :
    download_pdf resp max_file_size
      = .error (.urlError ("File too large: " ++ toString n ++ " bytes"))
    ∧ download_pdf { resp with chunks := body2 } max_file_size
      = .error (.urlError ("File too large: " ++ toString n ++ " bytes")) := by
  constructor <;> simp [download_pdf, hstatus, hlen, hbig]

/-- Witness for C4: a 200 response declaring 100 bytes against a 50-byte
limit fails with "File too large: 100 bytes" for two different bodies. -/
theorem claim_C4_declared_length_too_large_witness :
    download_pdf ⟨200, "OK", none, some 100, [[0, 1]]⟩ 50
      = .error (.urlError ("File too large: " ++ toString 100 ++ " bytes"))
    ∧ download_pdf ⟨200, "OK", none, some 100, [[5], [6]]⟩ 50
      = .error (.urlError ("File too large: " ++ toString 100 ++ " bytes")) :=
  claim_C4_declared_length_too_large ⟨200, "OK", none, some 100, [[0, 1]]⟩
    100 50 [[5], [6]] rfl rfl (by decide)

/-- Claim C5: with no declared content-length, the streamed read returns
the whole body when it is within the limit (in particular a body of exactly
maxBytes bytes is not rejected), fails with URLError "File exceeds maximum
size limit of <maxBytes> bytes" exactly when the accumulated body exceeds
the limit, and `_download_pdf` surfaces that failure. -/
theorem claim_C5_streamed_size_limit (chunks : List (List Nat))
    (resp : HttpResponse) (limit : Nat)
    (hstatus : resp.status = 200) (hnolen : resp.content_length = none) :
    (chunks.flatten.length ≤ limit →
      read_with_limit chunks limit = .ok chunks.flatten)
    ∧ (limit < chunks.flatten.length →
      read_with_limit chunks limit
        = .error (.urlError ("File exceeds maximum size limit of " ++
            toString limit ++ " bytes")))
    ∧ (limit < resp.chunks.flatten.length →
      download_pdf resp limit
        = .error (.urlError ("File exceeds maximum size limit of " ++
            toString limit ++ " bytes"))) := by
  refine ⟨fun h => read_with_limit_ok h, fun h => read_with_limit_error h,
    fun h => ?_⟩
  rw [download_pdf, if_neg (by simp [hstatus]), hnolen, download_body,
    read_with_limit_error h]

/-- Witness for C5: a three-byte body against a three-byte limit is
returned whole; against a two-byte limit both the streamed read and the
download fail with the size-limit message. -/
theorem claim_C5_streamed_size_limit_witness :
    read_with_limit [[1, 2], [3]] 3 = .ok ([[1, 2], [3]] : List (List Nat)).flatten
    ∧ read_with_limit [[1, 2], [3]] 2
      = .error (.urlError ("File exceeds maximum size limit of " ++
          toString 2 ++ " bytes"))
    ∧ download_pdf ⟨200, "OK", none, none, [[1, 2], [3]]⟩ 2
      = .error (.urlError ("File exceeds maximum size limit of " ++
          toString 2 ++ " bytes")) :=
  ⟨(claim_C5_streamed_size_limit [[1, 2], [3]]
      ⟨200, "OK", none, none, [[1, 2], [3]]⟩ 3 rfl rfl).1 (by decide),
   (claim_C5_streamed_size_limit [[1, 2], [3]]
      ⟨200, "OK", none, none, [[1, 2], [3]]⟩ 2 rfl rfl).2.1 (by decide),
   (claim_C5_streamed_size_limit [[1, 2], [3]]
      ⟨200, "OK", none, none, [[1, 2], [3]]⟩ 2 rfl rfl).2.2 (by decide)⟩

/-- Counterexample for C1: with the duplicated input list ["u", "u"] whose
pipeline call succeeds, the results dictionary collapses to a single entry,
so total_processed (2) differs from successful + failed (1). -/
theorem claim_C1_counterexample :
    ¬ ((extract_text_from_multiple_urls ["u", "u"] (fun _ => .ok ['a'])
        ["u", "u"]).total_processed
      = (extract_text_from_multiple_urls ["u", "u"] (fun _ => .ok ['a'])
        ["u", "u"]).successful
        + (extract_text_from_multiple_urls ["u", "u"] (fun _ => .ok ['a'])
        ["u", "u"]).failed) := by
  decide

/-- Claim C1 (amended): for pairwise-distinct input URLs, and any completion
order (a permutation of the input), the batch result satisfies
total_processed = successful + failed = number of input URLs, and every
input URL lands in exactly one of the results and errors dictionaries;
with duplicate URLs the dictionaries collapse entries and the count
equation fails. -/
theorem claim_C1_batch_invariant (urls order : List String)
    (f : String → Except String (List Char))
    (hnd : urls.Nodup) (hperm : order.Perm urls) :
    (extract_text_from_multiple_urls urls f order).total_processed
        = (extract_text_from_multiple_urls urls f order).successful
          + (extract_text_from_multiple_urls urls f order).failed
    ∧ (extract_text_from_multiple_urls urls f order).total_processed
        = urls.length
    ∧ ∀ u ∈ urls,
        ((∃ t, (u, t) ∈ (extract_text_from_multiple_urls urls f order).results)
            ∧ ∀ e, (u, e) ∉ (extract_text_from_multiple_urls urls f order).errors)
        ∨ ((∀ t, (u, t) ∉ (extract_text_from_multiple_urls urls f order).results)
            ∧ ∃ e, (u, e) ∈ (extract_text_from_multiple_urls urls f order).errors) := by
  have hndo : order.Nodup := hperm.symm.nodup hnd
  have hfold := batch_foldl_eq f order [] [] hndo (by simp)
  have hB : extract_text_from_multiple_urls urls f order
      = { results := okPairs f order
          errors := errPairs f order
          total_processed := urls.length
          successful := (okPairs f order).length
          failed := (errPairs f order).length } := by
    rw [extract_text_from_multiple_urls, hfold]
    simp
  rw [hB]
  refine ⟨?_, rfl, ?_⟩
  · have hlen := okPairs_add_errPairs_length f order
    rw [hperm.length_eq] at hlen
    exact hlen.symm
  · intro u hu
    have huo : u ∈ order := hperm.mem_iff.mpr hu
    cases hf : f u with
    | ok t =>
      left
      refine ⟨⟨t, mem_okPairs.mpr ⟨huo, hf⟩⟩, fun e he => ?_⟩
      have h2 := (mem_errPairs.mp he).2
      rw [hf] at h2
      simp at h2
    | error e =>
      right
      refine ⟨fun t ht => ?_, ⟨e, mem_errPairs.mpr ⟨huo, hf⟩⟩⟩
      have h2 := (mem_okPairs.mp ht).2
      rw [hf] at h2
      simp at h2

/-- Witness for C1 at the distinct input list ["a", "b"], where "a"
succeeds and "b" fails, completing in the order ["b", "a"]. -/
theorem claim_C1_batch_invariant_witness :
    (extract_text_from_multiple_urls ["a", "b"]
        (fun u => if u = "a" then .ok ['x'] else .error "boom")
        ["b", "a"]).total_processed
      = (extract_text_from_multiple_urls ["a", "b"]
        (fun u => if u = "a" then .ok ['x'] else .error "boom")
        ["b", "a"]).successful
        + (extract_text_from_multiple_urls ["a", "b"]
        (fun u => if u = "a" then .ok ['x'] else .error "boom")
        ["b", "a"]).failed :=
  (claim_C1_batch_invariant ["a", "b"] ["b", "a"]
    (fun u => if u = "a" then .ok ['x'] else .error "boom")
    (by decide) (by decide)).1
